import Mathlib

/-!
Verification of the quiz slide generator (src/quiz_generator.py).

Strings are modelled as lists of characters.  The Python string operations
used by the program (str.strip, str.split with an explicit separator, and
str.replace) are modelled by the executable functions below, and the three
program functions `parse_questions`, `generate_presentation` and `main` are
translated directly from the source.
-/

namespace QuizGen

/-- The whitespace characters removed by Python str.strip (ASCII range). -/
def isPySpace (c : Char) : Bool :=
  c = ' ' || c = '\t' || c = '\n' || c = '\r' || c = '\x0b' || c = '\x0c'

/-- Python str.lstrip: remove leading whitespace. -/
def lstrip (l : List Char) : List Char := l.dropWhile isPySpace

/-- Python str.rstrip: remove trailing whitespace. -/
def rstrip : List Char → List Char
  | [] => []
  | c :: t =>
    match rstrip t with
    | [] => if isPySpace c then [] else [c]
    | r :: rs => c :: r :: rs

/-- Python str.strip: remove whitespace at both ends. -/
def strip (l : List Char) : List Char := rstrip (lstrip l)

/-- Python s.split on a single newline character: leftmost splitting that
keeps empty segments, with the empty string producing one empty segment. -/
def splitN : List Char → List (List Char)
  | [] => [[]]
  | c :: rest =>
    if c = '\n' then [] :: splitN rest
    else
      match splitN rest with
      | [] => [[c]]
      | b :: bs => (c :: b) :: bs

/-- Python s.split on two consecutive newline characters: leftmost,
non-overlapping matches, keeping empty segments. -/
def splitNN : List Char → List (List Char)
  | [] => [[]]
  | [c] => [[c]]
  | c :: d :: rest =>
    if c = '\n' ∧ d = '\n' then [] :: splitNN rest
    else
      match splitNN (d :: rest) with
      | [] => [[c]]
      | b :: bs => (c :: b) :: bs

/-- One iteration of the block loop of parse_questions (source lines 32-40):
strip the block, split it into lines, and produce the (question, answer)
pair, an empty answer for a one-line block, or nothing for no lines. -/
def blockPair (block : List Char) : Option (List Char × List Char) :=
  match splitN (strip block) with
  | [] => none
  | [q] => some (strip q, [])
  | q :: a :: _ => some (strip q, strip a)

/-- parse_questions (source lines 15-42), applied to the text content read
from the file: strip the whole input, split it into blocks at blank lines,
and collect the pair each block contributes. -/
def parse_questions (content : List Char) : List (List Char × List Char) :=
  (splitNN (strip content)).filterMap blockPair

/-- A text box on a slide: its text and whether it is bold. -/
structure TextBox where
  text : List Char
  bold : Bool
deriving DecidableEq

/-- A slide: its title text and its body text boxes, in order. -/
structure Slide where
  title : List Char
  boxes : List TextBox
deriving DecidableEq

/-- The slide title f-string of the source: the decimal number, then a dot. -/
def numTitle (i : Nat) : List Char := (Nat.repr i).data ++ ['.']

/-- The first pass of generate_presentation (source lines 117-120): one slide
per pair, numbered from `i`, whose single body box is the question, not bold. -/
def questionSlides : Nat → List (List Char × List Char) → List Slide
  | _, [] => []
  | i, (q, _) :: rest => ⟨numTitle i, [⟨q, false⟩]⟩ :: questionSlides (i + 1) rest

/-- The second pass of generate_presentation (source lines 124-173): one slide
per pair, numbered from `i`, with the question box not bold and the answer box
bold. -/
def answerSlides : Nat → List (List Char × List Char) → List Slide
  | _, [] => []
  | i, (q, a) :: rest => ⟨numTitle i, [⟨q, false⟩, ⟨a, true⟩]⟩ :: answerSlides (i + 1) rest

/-- generate_presentation (source lines 103-180): all question slides, then
all answer slides, both numbered from 1. -/
def generate_presentation (qa : List (List Char × List Char)) : List Slide :=
  questionSlides 1 qa ++ answerSlides 1 qa

/-- Python s.split on the four-character separator of the extension: leftmost,
non-overlapping matches, keeping empty segments. -/
def splitTxt : List Char → List (List Char)
  | [] => [[]]
  | [c] => [[c]]
  | [c, d] => [[c, d]]
  | [c, d, e] => [[c, d, e]]
  | c :: d :: e :: f :: rest =>
    if c = '.' ∧ d = 't' ∧ e = 'x' ∧ f = 't' then [] :: splitTxt rest
    else
      match splitTxt (d :: e :: f :: rest) with
      | [] => [[c]]
      | b :: bs => (c :: b) :: bs

/-- Whether the four-character extension occurs anywhere in the string. -/
def containsTxt : List Char → Bool
  | c :: d :: e :: f :: rest =>
    if c = '.' ∧ d = 't' ∧ e = 'x' ∧ f = 't' then true
    else containsTxt (d :: e :: f :: rest)
  | _ => false

/-- Python input_file.replace of the txt extension by the pptx extension
(source line 196): replace every non-overlapping occurrence, scanning left to
right; modelled, as Python defines it, by splitting on the pattern and
joining with the replacement. -/
def replaceTxt (s : List Char) : List Char :=
  List.intercalate ".pptx".data (splitTxt s)

/-- The output filename computation of main (source lines 196-200). -/
def output_file (input_file : List Char) : List Char :=
  let o := replaceTxt input_file
  if o = input_file then input_file ++ ".pptx".data else o

/-- The observable outcome of one run of main. -/
inductive MainOutcome where
  | usageExit : MainOutcome
  | fileNotFoundExit : MainOutcome
  | emptyParseExit : MainOutcome
  | success : List Char → List Slide → MainOutcome
deriving DecidableEq

/-- main (source lines 183-221): argv is the full Python sys.argv, program
name included, and `file` is the content of the input file, or none when the
file does not exist.  Wrong arity prints usage and exits; a missing file or an
empty parse exits with an error; otherwise the deck is generated and saved
under the derived output filename. -/
def main (argv : List (List Char)) (file : Option (List Char)) : MainOutcome :=
  if argv.length ≠ 2 then MainOutcome.usageExit
  else
    match file with
    | none => MainOutcome.fileNotFoundExit
    | some content =>
      let qa := parse_questions content
      if qa = [] then MainOutcome.emptyParseExit
      else MainOutcome.success (output_file (argv.getD 1 [])) (generate_presentation qa)

/-- The process exit code of an outcome: 0 on success, 1 otherwise. -/
def exitCode : MainOutcome → Nat
  | MainOutcome.success _ _ => 0
  | _ => 1

/-- Whether an outcome wrote the output file. -/
def writesOutput : MainOutcome → Bool
  | MainOutcome.success _ _ => true
  | _ => false

/-- A well-formed input line: it contains no newline and is not blank. -/
def goodLine (l : List Char) : Prop := '\n' ∉ l ∧ strip l ≠ []

instance (l : List Char) : Decidable (goodLine l) :=
  inferInstanceAs (Decidable (_ ∧ _))

/-- The text of a block, given its lines: the lines joined by newlines. -/
def mkBlock (b : List (List Char)) : List Char := List.intercalate ['\n'] b

/-- The text of a whole input, given its blocks: the blocks joined by blank
lines. -/
def mkContent (blocks : List (List (List Char))) : List Char :=
  List.intercalate ['\n', '\n'] (blocks.map mkBlock)

/-- The pair the specification assigns to a block with at least two lines:
the first line is the question and the second the answer, both stripped. -/
def blockQA (b : List (List Char)) : List Char × List Char :=
  (strip b.headI, strip b.tail.headI)

/-- The output-filename rule as the specification states it: replace a
trailing txt extension, otherwise append the pptx extension.  Stated from the
spec's words, for comparison with `output_file`. -/
def spec_output_file (s : List Char) : List Char :=
  if 4 ≤ s.length ∧ s.drop (s.length - 4) = ".txt".data then
    s.take (s.length - 4) ++ ".pptx".data
  else s ++ ".pptx".data

/-- A character list in which two newlines never occur consecutively and
which does not end in a newline: splitting it on double newlines leaves it
whole. -/
def goodSeg : List Char → Bool
  | [] => true
  | [c] => c != '\n'
  | c :: d :: rest => if c = '\n' ∧ d = '\n' then false else goodSeg (d :: rest)

theorem intercalate_single (sep a : List Char) : List.intercalate sep [a] = a := by
  simp [List.intercalate]

theorem intercalate_cons₂ (sep a b : List Char) (l : List (List Char)) :
    List.intercalate sep (a :: b :: l) = a ++ sep ++ List.intercalate sep (b :: l) := by
  simp [List.intercalate, List.intersperse]

theorem cons_intercalate (sep b : List Char) (c : Char) (bs : List (List Char)) :
    List.intercalate sep ((c :: b) :: bs) = c :: List.intercalate sep (b :: bs) := by
  cases bs with
  | nil => simp [intercalate_single]
  | cons b₂ bs₂ => simp [intercalate_cons₂]

theorem splitN_ne_nil (l : List Char) : splitN l ≠ [] := by
  cases l with
  | nil => simp [splitN]
  | cons c rest =>
    rw [splitN]
    split
    · simp
    · split <;> simp

theorem splitNN_ne_nil (l : List Char) : splitNN l ≠ [] := by
  match l with
  | [] => simp [splitNN]
  | [c] => simp [splitNN]
  | c :: d :: rest =>
    rw [splitNN]
    split
    · simp
    · split <;> simp

theorem splitTxt_ne_nil (l : List Char) : splitTxt l ≠ [] := by
  match l with
  | [] => simp [splitTxt]
  | [c] => simp [splitTxt]
  | [c, d] => simp [splitTxt]
  | [c, d, e] => simp [splitTxt]
  | c :: d :: e :: f :: rest =>
    rw [splitTxt]
    split
    · simp
    · split <;> simp

theorem splitN_no_newline (l : List Char) : ∀ p ∈ splitN l, '\n' ∉ p := by
  induction l with
  | nil => simp [splitN]
  | cons c rest ih =>
    rw [splitN]
    split
    · intro p hp
      rcases List.mem_cons.mp hp with h | h
      · simp [h]
      · exact ih p h
    · rename_i hc
      cases hsp : splitN rest with
      | nil => exact absurd hsp (splitN_ne_nil rest)
      | cons b bs =>
        intro p hp
        rcases List.mem_cons.mp hp with h | h
        · subst h
          intro hmem
          rcases List.mem_cons.mp hmem with h | h
          · exact hc h.symm
          · exact ih b (hsp ▸ List.mem_cons_self b bs) h
        · exact ih p (hsp ▸ List.mem_cons_of_mem b h)

theorem splitN_of_no_newline (l : List Char) (h : '\n' ∉ l) : splitN l = [l] := by
  induction l with
  | nil => simp [splitN]
  | cons c rest ih =>
    rw [splitN]
    rw [if_neg (by intro hc; exact h (hc ▸ List.mem_cons_self c rest))]
    rw [ih (fun hm => h (List.mem_cons_of_mem c hm))]

theorem splitN_append_cons (a t : List Char) (h : '\n' ∉ a) :
    splitN (a ++ '\n' :: t) = a :: splitN t := by
  induction a with
  | nil => simp [splitN]
  | cons c a₂ ih =>
    have hc : ¬c = '\n' := fun hc => h (hc ▸ List.mem_cons_self c a₂)
    rw [List.cons_append, splitN, if_neg hc,
      ih (fun hm => h (List.mem_cons_of_mem c hm))]

theorem splitN_intercalate (ls : List (List Char)) (hne : ls ≠ [])
    (h : ∀ l ∈ ls, '\n' ∉ l) : splitN (List.intercalate ['\n'] ls) = ls := by
  induction ls with
  | nil => exact absurd rfl hne
  | cons l ls₂ ih =>
    cases ls₂ with
    | nil =>
      rw [intercalate_single]
      exact splitN_of_no_newline l (h l (List.mem_cons_self l []))
    | cons l₂ ls₃ =>
      rw [intercalate_cons₂]
      rw [List.append_assoc, List.singleton_append]
      rw [splitN_append_cons _ _ (h l (List.mem_cons_self _ _))]
      rw [ih (by simp) (fun x hx => h x (List.mem_cons_of_mem l hx))]

theorem goodSeg_tail (c : Char) (l : List Char) (h : goodSeg (c :: l) = true) :
    goodSeg l = true := by
  cases l with
  | nil => rfl
  | cons d rest =>
    rw [goodSeg] at h
    split at h
    · exact absurd h (by simp)
    · exact h

theorem goodSeg_head_ne (c d : Char) (l : List Char)
    (h : goodSeg (c :: d :: l) = true) (hc : c = '\n') : d ≠ '\n' := by
  intro hd
  rw [goodSeg, if_pos ⟨hc, hd⟩] at h
  exact absurd h (by simp)

theorem goodSeg_of_no_newline : ∀ l : List Char, '\n' ∉ l → goodSeg l = true
  | [], _ => rfl
  | [c], h => by
    have hc : c ≠ '\n' := by
      intro hc
      exact h (hc ▸ List.mem_cons_self c [])
    simp [goodSeg, bne_iff_ne, hc]
  | c :: d :: rest, h => by
    have hc : c ≠ '\n' := by
      intro hc
      exact h (hc ▸ List.mem_cons_self c (d :: rest))
    rw [goodSeg, if_neg (by intro hcd; exact hc hcd.1)]
    exact goodSeg_of_no_newline (d :: rest) (fun hm => h (List.mem_cons_of_mem c hm))

theorem splitNN_single : ∀ p : List Char, goodSeg p = true → splitNN p = [p]
  | [], _ => by simp [splitNN]
  | [c], _ => by simp [splitNN]
  | c :: d :: rest, h => by
    by_cases hcd : c = '\n' ∧ d = '\n'
    · rw [goodSeg, if_pos hcd] at h
      exact absurd h (by simp)
    · rw [goodSeg, if_neg hcd] at h
      rw [splitNN, if_neg hcd, splitNN_single (d :: rest) h]

theorem splitNN_append : ∀ p t : List Char, goodSeg p = true →
    splitNN (p ++ '\n' :: '\n' :: t) = p :: splitNN t
  | [], t, _ => by rw [List.nil_append, splitNN, if_pos ⟨rfl, rfl⟩]
  | [c], t, h => by
    have hc : c ≠ '\n' := by
      simpa [goodSeg, bne_iff_ne] using h
    have hnn : splitNN ('\n' :: '\n' :: t) = [] :: splitNN t := by
      rw [splitNN, if_pos ⟨rfl, rfl⟩]
    rw [List.cons_append, List.nil_append, splitNN,
      if_neg (by intro hcd; exact hc hcd.1), hnn]
  | c :: d :: p₂, t, h => by
    by_cases hcd : c = '\n' ∧ d = '\n'
    · rw [goodSeg, if_pos hcd] at h
      exact absurd h (by simp)
    · rw [goodSeg, if_neg hcd] at h
      have hrec := splitNN_append (d :: p₂) t h
      rw [List.cons_append] at hrec
      rw [List.cons_append, List.cons_append, splitNN, if_neg hcd, hrec]

theorem splitNN_intercalate (parts : List (List Char)) (hne : parts ≠ [])
    (h : ∀ p ∈ parts, goodSeg p = true) :
    splitNN (List.intercalate ['\n', '\n'] parts) = parts := by
  induction parts with
  | nil => exact absurd rfl hne
  | cons p ps ih =>
    cases ps with
    | nil =>
      rw [intercalate_single]
      exact splitNN_single p (h p (List.mem_cons_self p []))
    | cons p₂ ps₂ =>
      rw [intercalate_cons₂, List.append_assoc]
      have : ['\n', '\n'] ++ List.intercalate ['\n', '\n'] (p₂ :: ps₂) =
          '\n' :: '\n' :: List.intercalate ['\n', '\n'] (p₂ :: ps₂) := rfl
      rw [this, splitNN_append p _ (h p (List.mem_cons_self _ _))]
      rw [ih (by simp) (fun x hx => h x (List.mem_cons_of_mem p hx))]

theorem rstrip_eq_nil_iff (l : List Char) :
    rstrip l = [] ↔ ∀ c ∈ l, isPySpace c = true := by
  induction l with
  | nil => simp [rstrip]
  | cons c t ih =>
    rw [rstrip]
    cases h : rstrip t with
    | nil =>
      have ht : ∀ x ∈ t, isPySpace x = true := ih.mp h
      by_cases hc : isPySpace c = true
      · simp only [if_pos hc]
        simp only [true_iff, List.mem_cons]
        rintro x (rfl | hx)
        · exact hc
        · exact ht x hx
      · simp only [if_neg hc]
        constructor
        · intro hh
          exact absurd hh (by simp)
        · intro hall
          exact absurd (hall c (List.mem_cons_self c t)) hc
    | cons r rs =>
      have ht : ¬∀ x ∈ t, isPySpace x = true := by
        intro hall
        rw [ih.mpr hall] at h
        cases h
      constructor
      · intro hh
        cases hh
      · intro hall
        exact absurd (fun x hx => hall x (List.mem_cons_of_mem c hx)) ht

theorem rstrip_prefix_decomp (l : List Char) : ∃ m, l = rstrip l ++ m := by
  induction l with
  | nil => exact ⟨[], rfl⟩
  | cons c t ih =>
    obtain ⟨m, hm⟩ := ih
    cases h : rstrip t with
    | nil =>
      rw [rstrip, h]
      by_cases hc : isPySpace c = true
      · exact ⟨c :: t, by rw [if_pos hc]; rfl⟩
      · exact ⟨t, by rw [if_neg hc]; rfl⟩
    | cons r rs =>
      rw [rstrip, h]
      refine ⟨m, ?_⟩
      rw [h] at hm
      rw [List.cons_append, ← hm]

theorem rstrip_head (t : List Char) (r : Char) (rs : List Char)
    (h : rstrip t = r :: rs) : ∃ t₂, t = r :: t₂ := by
  obtain ⟨m, hm⟩ := rstrip_prefix_decomp t
  rw [h, List.cons_append] at hm
  exact ⟨rs ++ m, hm⟩

theorem rstrip_append (a b : List Char) (h : rstrip b ≠ []) :
    rstrip (a ++ b) = a ++ rstrip b := by
  induction a with
  | nil => rfl
  | cons c a₂ ih =>
    have hne : rstrip (a₂ ++ b) ≠ [] := by
      rw [ih]
      intro hap
      rcases List.append_eq_nil.mp hap with ⟨_, h₂⟩
      exact h h₂
    cases hr : rstrip (a₂ ++ b) with
    | nil => exact absurd hr hne
    | cons r rs =>
      rw [List.cons_append, rstrip, hr]
      show c :: r :: rs = c :: (a₂ ++ rstrip b)
      rw [← ih, hr]

theorem lstrip_append (a b : List Char) (h : lstrip a ≠ []) :
    lstrip (a ++ b) = lstrip a ++ b := by
  unfold lstrip at h ⊢
  rw [List.dropWhile_append, if_neg (by simpa [List.isEmpty_iff] using h)]

theorem lstrip_lstrip (l : List Char) : lstrip (lstrip l) = lstrip l := by
  induction l with
  | nil => rfl
  | cons c t ih =>
    by_cases hc : isPySpace c = true
    · simpa [lstrip, List.dropWhile_cons, hc] using ih
    · simp [lstrip, List.dropWhile_cons, hc]

theorem rstrip_rstrip (l : List Char) : rstrip (rstrip l) = rstrip l := by
  induction l with
  | nil => rfl
  | cons c t ih =>
    cases h : rstrip t with
    | nil =>
      rw [rstrip, h]
      by_cases hc : isPySpace c = true
      · rw [if_pos hc]
        rfl
      · rw [if_neg hc, rstrip]
        simp [rstrip, if_neg hc]
    | cons r rs =>
      rw [rstrip, h]
      rw [h] at ih
      rw [rstrip, ih]

theorem lstrip_eq_nil_of_rstrip_eq_nil (l : List Char) (h : rstrip l = []) :
    lstrip l = [] :=
  List.dropWhile_eq_nil_iff.mpr (rstrip_eq_nil_iff l |>.mp h)

theorem lstrip_rstrip (l : List Char) : lstrip (rstrip l) = rstrip (lstrip l) := by
  induction l with
  | nil => rfl
  | cons c t ih =>
    by_cases hc : isPySpace c = true
    · have hl : lstrip (c :: t) = lstrip t := by
        simp [lstrip, List.dropWhile_cons, hc]
      cases h : rstrip t with
      | nil =>
        rw [hl, rstrip, h, if_pos hc]
        have : lstrip t = [] := lstrip_eq_nil_of_rstrip_eq_nil t h
        rw [this]
        rfl
      | cons r rs =>
        rw [hl, rstrip, h]
        have hlc : lstrip (c :: r :: rs) = lstrip (r :: rs) := by
          simp [lstrip, List.dropWhile_cons, hc]
        rw [hlc, ← h, ih]
    · have hl : lstrip (c :: t) = c :: t := by
        simp [lstrip, List.dropWhile_cons, hc]
      rw [hl]
      cases h : rstrip t with
      | nil =>
        rw [rstrip, h, if_neg hc]
        simp [lstrip, List.dropWhile_cons, hc, rstrip, if_neg hc, h]
      | cons r rs =>
        rw [rstrip, h]
        simp [lstrip, List.dropWhile_cons, hc, rstrip, h]

theorem strip_lstrip (l : List Char) : strip (lstrip l) = strip l := by
  unfold strip
  rw [lstrip_lstrip]

theorem strip_rstrip (l : List Char) : strip (rstrip l) = strip l := by
  unfold strip
  rw [lstrip_rstrip, rstrip_rstrip]

theorem strip_strip (l : List Char) : strip (strip l) = strip l := by
  have h1 : strip (rstrip (lstrip l)) = strip (lstrip l) := strip_rstrip (lstrip l)
  have h2 : strip (strip l) = strip (rstrip (lstrip l)) := rfl
  rw [h2, h1, strip_lstrip]

theorem mem_of_mem_lstrip (c : Char) (l : List Char) (h : c ∈ lstrip l) : c ∈ l :=
  (List.dropWhile_sublist isPySpace).subset h

theorem mem_of_mem_rstrip (c : Char) (l : List Char) (h : c ∈ rstrip l) : c ∈ l := by
  induction l with
  | nil => exact absurd h (by simp [rstrip])
  | cons d t ih =>
    rw [rstrip] at h
    cases hr : rstrip t with
    | nil =>
      rw [hr] at h
      split_ifs at h with hd
      · exact absurd h (by simp)
      · simp only [List.mem_singleton] at h
        exact h ▸ List.mem_cons_self d t
    | cons r rs =>
      rw [hr] at h
      rcases List.mem_cons.mp h with rfl | h₂
      · exact List.mem_cons_self c t
      · exact List.mem_cons_of_mem d (ih (hr ▸ h₂))

theorem mem_of_mem_strip (c : Char) (l : List Char) (h : c ∈ strip l) : c ∈ l :=
  mem_of_mem_lstrip c l (mem_of_mem_rstrip c (lstrip l) h)

theorem lstrip_ne_nil_of_strip_ne_nil (l : List Char) (h : strip l ≠ []) :
    lstrip l ≠ [] := by
  intro hn
  exact h (by simp [strip, hn, rstrip])

theorem rstrip_ne_nil_of_strip_ne_nil (l : List Char) (h : strip l ≠ []) :
    rstrip l ≠ [] := by
  intro hn
  apply h
  unfold strip
  rw [← lstrip_rstrip, hn]
  rfl

theorem goodSeg_lstrip (l : List Char) (h : goodSeg l = true) :
    goodSeg (lstrip l) = true := by
  induction l with
  | nil => exact h
  | cons c t ih =>
    by_cases hc : isPySpace c = true
    · have : lstrip (c :: t) = lstrip t := by
        simp [lstrip, List.dropWhile_cons, hc]
      rw [this]
      exact ih (goodSeg_tail c t h)
    · have : lstrip (c :: t) = c :: t := by
        simp [lstrip, List.dropWhile_cons, hc]
      rw [this]
      exact h

theorem goodSeg_rstrip (l : List Char) (h : goodSeg l = true) :
    goodSeg (rstrip l) = true := by
  induction l with
  | nil => exact h
  | cons c t ih =>
    cases hr : rstrip t with
    | nil =>
      rw [rstrip, hr]
      by_cases hc : isPySpace c = true
      · rw [if_pos hc]
        rfl
      · rw [if_neg hc]
        have hcn : c ≠ '\n' := by
          intro hcc
          exact hc (by rw [hcc]; rfl)
        simp [goodSeg, bne_iff_ne, hcn]
    | cons r rs =>
      rw [rstrip, hr]
      have hgs : goodSeg (r :: rs) = true := hr ▸ ih (goodSeg_tail c t h)
      have hne : ¬(c = '\n' ∧ r = '\n') := by
        rintro ⟨hc, hrn⟩
        obtain ⟨t₂, rfl⟩ := rstrip_head t r rs hr
        exact goodSeg_head_ne c r t₂ h hc hrn
      rw [goodSeg, if_neg hne]
      exact hgs

/-- Apply a function to the first element of a list of character lists. -/
def modHead (f : List Char → List Char) : List (List Char) → List (List Char)
  | [] => []
  | p :: ps => f p :: ps

/-- Apply a function to the last element of a list of character lists. -/
def modLast (f : List Char → List Char) : List (List Char) → List (List Char)
  | [] => []
  | [p] => [f p]
  | p :: p₂ :: ps => p :: modLast f (p₂ :: ps)

theorem modLast_concat (f : List Char → List Char) (qs : List (List Char))
    (q : List Char) : modLast f (qs ++ [q]) = qs ++ [f q] := by
  induction qs with
  | nil => rfl
  | cons a qs₂ ih =>
    cases qs₂ with
    | nil => rfl
    | cons b qs₃ =>
      show a :: modLast f ((b :: qs₃) ++ [q]) = a :: ((b :: qs₃) ++ [f q])
      rw [ih]

theorem mem_modLast (f : List Char → List Char) :
    ∀ (l : List (List Char)) (x : List Char), x ∈ modLast f l →
      x ∈ l ∨ ∃ y ∈ l, x = f y
  | [], x, hx => absurd hx (by simp [modLast])
  | [p], x, hx => by
    rcases List.mem_singleton.mp hx with rfl
    exact Or.inr ⟨p, List.mem_singleton.mpr rfl, rfl⟩
  | p :: p₂ :: ps, x, hx => by
    rcases List.mem_cons.mp hx with rfl | hx₂
    · exact Or.inl (List.mem_cons_self _ _)
    · rcases mem_modLast f (p₂ :: ps) x hx₂ with h | ⟨y, hy, hxy⟩
      · exact Or.inl (List.mem_cons_of_mem p h)
      · exact Or.inr ⟨y, List.mem_cons_of_mem p hy, hxy⟩

theorem getLastD_mem : ∀ (l : List (List Char)) (d : List Char), l ≠ [] →
    l.getLastD d ∈ l
  | [], _, h => absurd rfl h
  | [p], d, _ => by simp
  | p :: p₂ :: ps, d, _ => by
    rw [List.getLastD_cons]
    exact List.mem_cons_of_mem p (getLastD_mem (p₂ :: ps) p (by simp))

theorem intercalate_concat_ne_nil (sep : List Char) (qs : List (List Char))
    (q : List Char) (h : q ≠ []) : List.intercalate sep (qs ++ [q]) ≠ [] := by
  induction qs with
  | nil =>
    rw [List.nil_append, intercalate_single]
    exact h
  | cons a qs₂ ih =>
    rcases hq : qs₂ ++ [q] with _ | ⟨b, bs⟩
    · exact absurd hq (by simp)
    · rw [List.cons_append, hq, intercalate_cons₂]
      intro h0
      rcases List.append_eq_nil.mp h0 with ⟨-, h2⟩
      rw [← hq] at h2
      exact ih h2

theorem intercalate_cons_ne_nil (sep x : List Char) (xs : List (List Char))
    (h : x ≠ []) : List.intercalate sep (x :: xs) ≠ [] := by
  cases xs with
  | nil =>
    rw [intercalate_single]
    exact h
  | cons b bs =>
    rw [intercalate_cons₂]
    intro h0
    rcases List.append_eq_nil.mp h0 with ⟨h1, -⟩
    rcases List.append_eq_nil.mp h1 with ⟨h2, -⟩
    exact h h2

theorem lstrip_intercalate (sep p : List Char) (ps : List (List Char))
    (h : lstrip p ≠ []) :
    lstrip (List.intercalate sep (p :: ps)) = List.intercalate sep (lstrip p :: ps) := by
  cases ps with
  | nil => rw [intercalate_single, intercalate_single]
  | cons p₂ ps₂ =>
    rw [intercalate_cons₂, intercalate_cons₂, List.append_assoc, List.append_assoc,
      lstrip_append _ _ h]

theorem rstrip_intercalate (sep : List Char) (qs : List (List Char)) (q : List Char)
    (h : rstrip q ≠ []) :
    rstrip (List.intercalate sep (qs ++ [q])) = List.intercalate sep (qs ++ [rstrip q]) := by
  induction qs with
  | nil => rw [List.nil_append, List.nil_append, intercalate_single, intercalate_single]
  | cons a qs₂ ih =>
    rcases hq : qs₂ ++ [q] with _ | ⟨b, bs⟩
    · exact absurd hq (by simp)
    · rcases hq₂ : qs₂ ++ [rstrip q] with _ | ⟨b₂, bs₂⟩
      · exact absurd hq₂ (by simp)
      · rw [List.cons_append, hq, intercalate_cons₂, List.cons_append, hq₂,
          intercalate_cons₂]
        have hne : rstrip (List.intercalate sep (b :: bs)) ≠ [] := by
          rw [← hq, ih]
          exact intercalate_concat_ne_nil sep qs₂ (rstrip q) h
        have h2 : rstrip (sep ++ List.intercalate sep (b :: bs)) =
            sep ++ rstrip (List.intercalate sep (b :: bs)) :=
          rstrip_append sep _ hne
        have h3 : rstrip (sep ++ List.intercalate sep (b :: bs)) ≠ [] := by
          rw [h2]
          intro h0
          rcases List.append_eq_nil.mp h0 with ⟨-, h5⟩
          exact hne h5
        rw [List.append_assoc, rstrip_append a _ h3, h2, ← hq, ih, hq₂,
          List.append_assoc]

theorem strip_intercalate (sep p : List Char) (ps : List (List Char))
    (h1 : lstrip p ≠ [])
    (h2 : rstrip ((lstrip p :: ps).getLastD []) ≠ []) :
    strip (List.intercalate sep (p :: ps)) =
      List.intercalate sep (modLast rstrip (lstrip p :: ps)) := by
  unfold strip
  rw [lstrip_intercalate sep p ps h1]
  obtain ⟨qs, q, hqs⟩ : ∃ qs q, lstrip p :: ps = qs ++ [q] := by
    rcases List.eq_nil_or_concat (lstrip p :: ps) with h | ⟨L, b, hl⟩
    · cases h
    · exact ⟨L, b, by rw [hl, List.concat_eq_append]⟩
  rw [hqs] at h2 ⊢
  rw [List.getLastD_concat] at h2
  rw [rstrip_intercalate sep qs q h2, modLast_concat]

theorem goodLine_ne_nil (l : List Char) (h : goodLine l) : l ≠ [] := by
  intro hn
  exact h.2 (by rw [hn]; rfl)

theorem goodSeg_append_left : ∀ l m : List Char, '\n' ∉ l → goodSeg m = true →
    goodSeg (l ++ m) = true
  | [], _, _, hm => hm
  | [c], m, hl, hm => by
    have hc : c ≠ '\n' := fun hcc => hl (hcc ▸ List.mem_cons_self c [])
    cases m with
    | nil => simp [goodSeg, bne_iff_ne, hc]
    | cons d m₂ =>
      show goodSeg (c :: d :: m₂) = true
      rw [goodSeg, if_neg (fun hcd => hc hcd.1)]
      exact hm
  | c :: c₂ :: l₂, m, hl, hm => by
    have hc : c ≠ '\n' := fun hcc => hl (hcc ▸ List.mem_cons_self _ _)
    show goodSeg (c :: c₂ :: (l₂ ++ m)) = true
    rw [goodSeg, if_neg (fun hcd => hc hcd.1)]
    exact goodSeg_append_left (c₂ :: l₂) m
      (fun hmm => hl (List.mem_cons_of_mem c hmm)) hm

theorem goodSeg_mkBlock : ∀ b : List (List Char),
    (∀ l ∈ b, '\n' ∉ l ∧ l ≠ []) → goodSeg (mkBlock b) = true
  | [], _ => rfl
  | [l], h => by
    rw [mkBlock, intercalate_single]
    exact goodSeg_of_no_newline l (h l (List.mem_cons_self l [])).1
  | l :: [] :: ls, h =>
    absurd rfl (h [] (List.mem_cons_of_mem l (List.mem_cons_self [] ls))).2
  | l :: (c :: l₃) :: ls, h => by
    have hrec : goodSeg (mkBlock ((c :: l₃) :: ls)) = true :=
      goodSeg_mkBlock ((c :: l₃) :: ls) (fun x hx => h x (List.mem_cons_of_mem l hx))
    have hc : c ≠ '\n' := by
      intro hcc
      exact (h (c :: l₃) (List.mem_cons_of_mem l (List.mem_cons_self _ _))).1
        (hcc ▸ List.mem_cons_self c l₃)
    rw [mkBlock, intercalate_cons₂, List.append_assoc]
    apply goodSeg_append_left l _ (h l (List.mem_cons_self _ _)).1
    show goodSeg ('\n' :: List.intercalate ['\n'] ((c :: l₃) :: ls)) = true
    rw [cons_intercalate, goodSeg, if_neg (fun hcd => hc hcd.2), ← cons_intercalate]
    exact hrec

theorem lstrip_mkBlock_ne_nil (l : List Char) (ls : List (List Char))
    (h : lstrip l ≠ []) : lstrip (mkBlock (l :: ls)) ≠ [] := by
  cases ls with
  | nil =>
    rw [mkBlock, intercalate_single]
    exact h
  | cons l₂ ls₂ =>
    rw [mkBlock, intercalate_cons₂, List.append_assoc, lstrip_append _ _ h]
    intro h0
    rcases List.append_eq_nil.mp h0 with ⟨h1, -⟩
    exact h h1

theorem rstrip_mkBlock_ne_nil (b : List (List Char)) (hne : b ≠ [])
    (h : rstrip (b.getLastD []) ≠ []) : rstrip (mkBlock b) ≠ [] := by
  obtain ⟨qs, q, rfl⟩ : ∃ qs q, b = qs ++ [q] := by
    rcases List.eq_nil_or_concat b with h0 | ⟨L, x, hl⟩
    · exact absurd h0 hne
    · exact ⟨L, x, by rw [hl, List.concat_eq_append]⟩
  rw [List.getLastD_concat] at h
  rw [mkBlock, rstrip_intercalate ['\n'] qs q h]
  exact intercalate_concat_ne_nil _ _ _ h

theorem strip_mkBlock (l : List Char) (ls : List (List Char))
    (h : ∀ x ∈ l :: ls, goodLine x) :
    strip (mkBlock (l :: ls)) =
      List.intercalate ['\n'] (modLast rstrip (lstrip l :: ls)) := by
  rw [mkBlock]
  apply strip_intercalate
  · exact lstrip_ne_nil_of_strip_ne_nil l (h l (List.mem_cons_self _ _)).2
  · cases ls with
    | nil =>
      show rstrip (lstrip l) ≠ []
      exact (h l (List.mem_cons_self _ _)).2
    | cons l₂ ls₂ =>
      rw [List.getLastD_cons]
      have hm : (l₂ :: ls₂).getLastD (lstrip l) ∈ l₂ :: ls₂ :=
        getLastD_mem _ _ (by simp)
      exact rstrip_ne_nil_of_strip_ne_nil _
        ((h _ (List.mem_cons_of_mem l hm)).2)

theorem strip_mkBlock_ne_nil (l : List Char) (ls : List (List Char))
    (h : ∀ x ∈ l :: ls, goodLine x) : strip (mkBlock (l :: ls)) ≠ [] := by
  rw [strip_mkBlock l ls h]
  cases ls with
  | nil =>
    show List.intercalate ['\n'] [rstrip (lstrip l)] ≠ []
    rw [intercalate_single]
    exact (h l (List.mem_cons_self _ _)).2
  | cons l₂ ls₂ =>
    show List.intercalate ['\n'] (lstrip l :: modLast rstrip (l₂ :: ls₂)) ≠ []
    exact intercalate_cons_ne_nil _ _ _
      (lstrip_ne_nil_of_strip_ne_nil l (h l (List.mem_cons_self _ _)).2)

theorem blockPair_lstrip (x : List Char) : blockPair (lstrip x) = blockPair x := by
  unfold blockPair
  rw [strip_lstrip]

theorem blockPair_rstrip (x : List Char) : blockPair (rstrip x) = blockPair x := by
  unfold blockPair
  rw [strip_rstrip]

theorem blockPair_strip (x : List Char) : blockPair (strip x) = blockPair x := by
  unfold blockPair
  rw [strip_strip]

theorem filterMap_modHead (f : List Char → Option (List Char × List Char))
    (g : List Char → List Char) (hg : ∀ x, f (g x) = f x) (l : List (List Char)) :
    List.filterMap f (modHead g l) = List.filterMap f l := by
  cases l with
  | nil => rfl
  | cons p ps => simp [modHead, List.filterMap_cons, hg]

theorem filterMap_modLast (f : List Char → Option (List Char × List Char))
    (g : List Char → List Char) (hg : ∀ x, f (g x) = f x) :
    ∀ l : List (List Char), List.filterMap f (modLast g l) = List.filterMap f l
  | [] => rfl
  | [p] => by simp [modLast, List.filterMap_cons, hg]
  | p :: p₂ :: ps => by
    show List.filterMap f (p :: modLast g (p₂ :: ps)) = _
    rw [List.filterMap_cons, List.filterMap_cons, filterMap_modLast f g hg (p₂ :: ps)]

theorem filterMap_eq_map_of_some (f : List (List Char) → Option (List Char × List Char))
    (g : List (List Char) → List Char × List Char) (l : List (List (List Char)))
    (h : ∀ x ∈ l, f x = some (g x)) : List.filterMap f l = List.map g l := by
  induction l with
  | nil => rfl
  | cons a l₂ ih =>
    rw [List.filterMap_cons, h a (List.mem_cons_self _ _), List.map_cons,
      ih (fun x hx => h x (List.mem_cons_of_mem a hx))]

theorem blockPair_mkBlock (l1 l2 : List Char) (rest : List (List Char))
    (h : ∀ x ∈ l1 :: l2 :: rest, goodLine x) :
    blockPair (mkBlock (l1 :: l2 :: rest)) = some (strip l1, strip l2) := by
  have hnn : ∀ x ∈ lstrip l1 :: modLast rstrip (l2 :: rest), '\n' ∉ x := by
    intro x hx
    rcases List.mem_cons.mp hx with rfl | hx₂
    · exact fun hm => (h l1 (List.mem_cons_self _ _)).1 (mem_of_mem_lstrip _ _ hm)
    · rcases mem_modLast rstrip (l2 :: rest) x hx₂ with hx₃ | ⟨y, hy, rfl⟩
      · exact (h x (List.mem_cons_of_mem l1 hx₃)).1
      · exact fun hm => (h y (List.mem_cons_of_mem l1 hy)).1 (mem_of_mem_rstrip _ _ hm)
  have hsplit : splitN (List.intercalate ['\n']
        (lstrip l1 :: modLast rstrip (l2 :: rest))) =
      lstrip l1 :: modLast rstrip (l2 :: rest) :=
    splitN_intercalate _ (by simp) hnn
  have hml : modLast rstrip (lstrip l1 :: l2 :: rest) =
      lstrip l1 :: modLast rstrip (l2 :: rest) := rfl
  unfold blockPair
  rw [strip_mkBlock l1 (l2 :: rest) h, hml, hsplit]
  cases rest with
  | nil =>
    have hm2 : modLast rstrip [l2] = [rstrip l2] := rfl
    rw [hm2]
    show some (strip (lstrip l1), strip (rstrip l2)) = some (strip l1, strip l2)
    rw [strip_lstrip, strip_rstrip]
  | cons r rs =>
    have hm2 : modLast rstrip (l2 :: r :: rs) = l2 :: modLast rstrip (r :: rs) := rfl
    rw [hm2]
    show some (strip (lstrip l1), strip l2) = some (strip l1, strip l2)
    rw [strip_lstrip]

theorem modLast_ne_nil (f : List Char → List Char) (a : List Char)
    (t : List (List Char)) : modLast f (a :: t) ≠ [] := by
  cases t <;> simp [modLast]

/-- C1: an input text made of blank-line-separated blocks, every block with at
least two lines and every line free of newlines and not blank, parses to
exactly one pair per block, in input order, the pair being the block's first
two lines stripped. -/
theorem c1_parse_wellformed_blocks (blocks : List (List (List Char)))
    (hne : blocks ≠ [])
    (hlen : ∀ b ∈ blocks, 2 ≤ b.length)
    (hlines : ∀ b ∈ blocks, ∀ l ∈ b, goodLine l) :
    parse_questions (mkContent blocks) = blocks.map blockQA := by
  cases blocks with
  | nil => exact absurd rfl hne
  | cons b bs =>
    obtain ⟨l1, ls, rfl⟩ : ∃ l1 ls, b = l1 :: ls := by
      have h2 := hlen b (List.mem_cons_self _ _)
      cases b with
      | nil => simp at h2
      | cons l1 ls => exact ⟨l1, ls, rfl⟩
    have hgoodb : ∀ x ∈ l1 :: ls, goodLine x := hlines _ (List.mem_cons_self _ _)
    have hl1 : lstrip l1 ≠ [] :=
      lstrip_ne_nil_of_strip_ne_nil l1 (hgoodb l1 (List.mem_cons_self _ _)).2
    have hA : lstrip (mkBlock (l1 :: ls)) ≠ [] := lstrip_mkBlock_ne_nil l1 ls hl1
    have hgs : ∀ b₂ ∈ (l1 :: ls) :: bs, goodSeg (mkBlock b₂) = true := by
      intro b₂ hb₂
      exact goodSeg_mkBlock b₂ (fun l hl =>
        ⟨(hlines b₂ hb₂ l hl).1, goodLine_ne_nil l (hlines b₂ hb₂ l hl)⟩)
    have hB : rstrip ((lstrip (mkBlock (l1 :: ls)) :: bs.map mkBlock).getLastD []) ≠ [] := by
      cases bs with
      | nil =>
        show rstrip (lstrip (mkBlock (l1 :: ls))) ≠ []
        exact strip_mkBlock_ne_nil l1 ls hgoodb
      | cons b₂ bs₂ =>
        rw [List.map_cons, List.getLastD_cons]
        have hmem : (mkBlock b₂ :: List.map mkBlock bs₂).getLastD
            (lstrip (mkBlock (l1 :: ls))) ∈ mkBlock b₂ :: List.map mkBlock bs₂ :=
          getLastD_mem _ _ (by simp)
        rw [show mkBlock b₂ :: List.map mkBlock bs₂ =
          List.map mkBlock (b₂ :: bs₂) from rfl] at hmem
        obtain ⟨b₃, hb₃, hb₃eq⟩ := List.mem_map.mp hmem
        rw [show mkBlock b₂ :: List.map mkBlock bs₂ =
          List.map mkBlock (b₂ :: bs₂) from rfl, ← hb₃eq]
        have hb₃mem : b₃ ∈ (l1 :: ls) :: b₂ :: bs₂ := List.mem_cons_of_mem _ hb₃
        obtain ⟨m1, ms, rfl⟩ : ∃ m1 ms, b₃ = m1 :: ms := by
          have h2 := hlen b₃ hb₃mem
          cases b₃ with
          | nil => simp at h2
          | cons m1 ms => exact ⟨m1, ms, rfl⟩
        apply rstrip_mkBlock_ne_nil (m1 :: ms) (by simp)
        have hml : (m1 :: ms).getLastD [] ∈ m1 :: ms := getLastD_mem _ _ (by simp)
        exact rstrip_ne_nil_of_strip_ne_nil _ ((hlines _ hb₃mem _ hml).2)
    have hmaster := strip_intercalate ['\n', '\n'] (mkBlock (l1 :: ls))
      (bs.map mkBlock) hA hB
    have hgsAll : ∀ x ∈ modLast rstrip (lstrip (mkBlock (l1 :: ls)) :: bs.map mkBlock),
        goodSeg x = true := by
      have base : ∀ y ∈ lstrip (mkBlock (l1 :: ls)) :: bs.map mkBlock,
          goodSeg y = true := by
        intro y hy
        rcases List.mem_cons.mp hy with rfl | hy₂
        · exact goodSeg_lstrip _ (hgs _ (List.mem_cons_self _ _))
        · obtain ⟨b₃, hb₃, rfl⟩ := List.mem_map.mp hy₂
          exact hgs b₃ (List.mem_cons_of_mem _ hb₃)
      intro x hx
      rcases mem_modLast rstrip _ x hx with hx₂ | ⟨y, hy, rfl⟩
      · exact base x hx₂
      · exact goodSeg_rstrip y (base y hy)
    simp only [parse_questions, mkContent, List.map_cons]
    rw [hmaster]
    rw [splitNN_intercalate _ (modLast_ne_nil rstrip _ _) hgsAll]
    rw [filterMap_modLast blockPair rstrip blockPair_rstrip]
    rw [show lstrip (mkBlock (l1 :: ls)) :: bs.map mkBlock =
      modHead lstrip (mkBlock (l1 :: ls) :: bs.map mkBlock) from rfl]
    rw [filterMap_modHead blockPair lstrip blockPair_lstrip]
    rw [show mkBlock (l1 :: ls) :: bs.map mkBlock =
      ((l1 :: ls) :: bs).map mkBlock from rfl]
    rw [List.filterMap_map]
    apply filterMap_eq_map_of_some
    intro bi hbi
    obtain ⟨m1, m2, mrest, rfl⟩ : ∃ m1 m2 mrest, bi = m1 :: m2 :: mrest := by
      have h2 := hlen bi hbi
      cases bi with
      | nil => simp at h2
      | cons m1 t =>
        cases t with
        | nil => simp at h2
        | cons m2 mrest => exact ⟨m1, m2, mrest, rfl⟩
    show blockPair (mkBlock (m1 :: m2 :: mrest)) = some (blockQA (m1 :: m2 :: mrest))
    rw [blockPair_mkBlock m1 m2 mrest (fun x hx => hlines _ hbi x hx)]
    rfl

theorem questionSlides_length (qa : List (List Char × List Char)) :
    ∀ s, (questionSlides s qa).length = qa.length := by
  induction qa with
  | nil => intro s; rfl
  | cons p rest ih =>
    intro s
    cases p with
    | mk q a =>
      rw [questionSlides, List.length_cons, ih (s + 1)]
      rfl

theorem answerSlides_length (qa : List (List Char × List Char)) :
    ∀ s, (answerSlides s qa).length = qa.length := by
  induction qa with
  | nil => intro s; rfl
  | cons p rest ih =>
    intro s
    cases p with
    | mk q a =>
      rw [answerSlides, List.length_cons, ih (s + 1)]
      rfl

theorem questionSlides_get (qa : List (List Char × List Char)) :
    ∀ (s i : Nat) (q a : List Char), qa[i]? = some (q, a) →
      (questionSlides s qa)[i]? = some ⟨numTitle (s + i), [⟨q, false⟩]⟩ := by
  induction qa with
  | nil =>
    intro s i q a h
    simp at h
  | cons p rest ih =>
    intro s i q a h
    cases p with
    | mk q0 a0 =>
      cases i with
      | zero =>
        simp only [List.getElem?_cons_zero, Option.some.injEq, Prod.mk.injEq] at h
        rw [questionSlides]
        simp [h.1]
      | succ i₂ =>
        rw [questionSlides]
        simp only [List.getElem?_cons_succ] at h ⊢
        rw [ih (s + 1) i₂ q a h]
        have harith : s + 1 + i₂ = s + (i₂ + 1) := by omega
        rw [harith]

theorem answerSlides_get (qa : List (List Char × List Char)) :
    ∀ (s i : Nat) (q a : List Char), qa[i]? = some (q, a) →
      (answerSlides s qa)[i]? = some ⟨numTitle (s + i), [⟨q, false⟩, ⟨a, true⟩]⟩ := by
  induction qa with
  | nil =>
    intro s i q a h
    simp at h
  | cons p rest ih =>
    intro s i q a h
    cases p with
    | mk q0 a0 =>
      cases i with
      | zero =>
        simp only [List.getElem?_cons_zero, Option.some.injEq, Prod.mk.injEq] at h
        rw [answerSlides]
        simp [h.1, h.2]
      | succ i₂ =>
        rw [answerSlides]
        simp only [List.getElem?_cons_succ] at h ⊢
        rw [ih (s + 1) i₂ q a h]
        have harith : s + 1 + i₂ = s + (i₂ + 1) := by omega
        rw [harith]

/-- C2: for a non-empty list of N parsed pairs, the generated deck has exactly
2N slides: slide i (0-based) is the question slide of pair i with title
"i+1." and the question, not bold; slide N+i is the answer slide of pair i
with the same title, the question not bold and the answer bold.  Question
slides and answer slides are never interleaved. -/
theorem c2_deck_layout (qa : List (List Char × List Char)) (_hne : qa ≠ []) :
    (generate_presentation qa).length = 2 * qa.length ∧
    ∀ i q a, qa[i]? = some (q, a) →
      (generate_presentation qa)[i]? = some ⟨numTitle (i + 1), [⟨q, false⟩]⟩ ∧
      (generate_presentation qa)[qa.length + i]? =
        some ⟨numTitle (i + 1), [⟨q, false⟩, ⟨a, true⟩]⟩ := by
  constructor
  · unfold generate_presentation
    rw [List.length_append, questionSlides_length qa 1, answerSlides_length qa 1]
    omega
  · intro i q a h
    have hi : i < qa.length := by
      by_contra hlt
      rw [List.getElem?_eq_none (by omega)] at h
      cases h
    constructor
    · unfold generate_presentation
      rw [List.getElem?_append, if_pos (by rw [questionSlides_length qa 1]; exact hi)]
      rw [questionSlides_get qa 1 i q a h, Nat.add_comm 1 i]
    · unfold generate_presentation
      rw [List.getElem?_append_right (by rw [questionSlides_length qa 1]; omega)]
      rw [questionSlides_length qa 1]
      have harith : qa.length + i - qa.length = i := by omega
      rw [harith, answerSlides_get qa 1 i q a h, Nat.add_comm 1 i]

theorem replaceTxt_of_not_contains : ∀ s : List Char,
    containsTxt s = false → replaceTxt s = s
  | [], _ => rfl
  | [_], _ => rfl
  | [_, _], _ => rfl
  | [_, _, _], _ => rfl
  | c :: d :: e :: f :: rest, h => by
    rw [containsTxt] at h
    by_cases hp : c = '.' ∧ d = 't' ∧ e = 'x' ∧ f = 't'
    · rw [if_pos hp] at h
      cases h
    · rw [if_neg hp] at h
      have hrec := replaceTxt_of_not_contains (d :: e :: f :: rest) h
      unfold replaceTxt at hrec ⊢
      rw [splitTxt, if_neg hp]
      cases hs : splitTxt (d :: e :: f :: rest) with
      | nil => exact absurd hs (splitTxt_ne_nil _)
      | cons b bs =>
        rw [hs] at hrec
        show List.intercalate ".pptx".data ((c :: b) :: bs) = c :: d :: e :: f :: rest
        rw [cons_intercalate, hrec]

theorem replaceTxt_ne_of_contains : ∀ s : List Char,
    containsTxt s = true → replaceTxt s ≠ s
  | [], h => by cases h
  | [_], h => by cases h
  | [_, _], h => by cases h
  | [_, _, _], h => by cases h
  | c :: d :: e :: f :: rest, h => by
    rw [containsTxt] at h
    by_cases hp : c = '.' ∧ d = 't' ∧ e = 'x' ∧ f = 't'
    · obtain ⟨rfl, rfl, rfl, rfl⟩ := hp
      unfold replaceTxt
      rw [splitTxt, if_pos ⟨rfl, rfl, rfl, rfl⟩]
      cases hs : splitTxt rest with
      | nil => exact absurd hs (splitTxt_ne_nil _)
      | cons b bs =>
        rw [intercalate_cons₂]
        intro heq
        have hpptx : (".pptx".data : List Char) = ['.', 'p', 'p', 't', 'x'] := rfl
        rw [hpptx, List.nil_append] at heq
        rw [List.cons_append, List.cons_append] at heq
        injection heq with h1 h2
        injection h2 with h3 h4
        exact absurd h3 (by decide)
    · rw [if_neg hp] at h
      have hrec := replaceTxt_ne_of_contains (d :: e :: f :: rest) h
      unfold replaceTxt at hrec ⊢
      rw [splitTxt, if_neg hp]
      cases hs : splitTxt (d :: e :: f :: rest) with
      | nil => exact absurd hs (splitTxt_ne_nil _)
      | cons b bs =>
        rw [hs] at hrec
        show List.intercalate ".pptx".data ((c :: b) :: bs) ≠ c :: d :: e :: f :: rest
        rw [cons_intercalate]
        intro heq
        injection heq with h1 h2
        exact hrec h2

/-- C3 counterexample: the output filename is not obtained by replacing only
a trailing txt extension; on a name with two txt occurrences the program
replaces both, where the spec rule would replace only the last. -/
theorem c3_counterexample :
    output_file "quiz.txt.txt".data ≠ spec_output_file "quiz.txt.txt".data ∧
    output_file "quiz.txt.txt".data = "quiz.pptx.pptx".data ∧
    spec_output_file "quiz.txt.txt".data = "quiz.txt.pptx".data := by
  refine ⟨?_, by decide, by decide⟩
  decide

/-- C3 amended: the output filename replaces every non-overlapping occurrence
of the txt extension, scanned left to right, with the pptx extension; when
the extension does not occur at all, the pptx extension is appended to the
full original name. -/
theorem c3_output_filename (s : List Char) :
    output_file s =
      if containsTxt s = true then replaceTxt s else s ++ ".pptx".data := by
  unfold output_file
  by_cases h : containsTxt s = true
  · rw [if_pos h, if_neg (fun heq => replaceTxt_ne_of_contains s h heq)]
  · have hf : containsTxt s = false := by
      revert h
      cases containsTxt s <;> simp
    rw [if_neg h, replaceTxt_of_not_contains s hf, if_pos rfl]

theorem blockPair_isSome (b : List Char) : ∃ p, blockPair b = some p := by
  unfold blockPair
  cases hs : splitN (strip b) with
  | nil => exact absurd hs (splitN_ne_nil _)
  | cons q t =>
    cases t with
    | nil => exact ⟨(strip q, []), rfl⟩
    | cons a t₂ => exact ⟨(strip q, strip a), rfl⟩

theorem parse_questions_length (c : List Char) :
    (parse_questions c).length = (splitNN (strip c)).length := by
  unfold parse_questions
  generalize splitNN (strip c) = L
  induction L with
  | nil => rfl
  | cons b t ih =>
    obtain ⟨p, hp⟩ := blockPair_isSome b
    rw [List.filterMap_cons, hp, List.length_cons, ih]
    rfl

theorem parse_questions_ne_nil (c : List Char) : parse_questions c ≠ [] := by
  intro h0
  have hlen := parse_questions_length c
  rw [h0] at hlen
  exact splitNN_ne_nil (strip c) (List.length_eq_zero.mp hlen.symm)

/-- C4: on the empty input the code does not behave as the claim states.  It
parses the empty content to the single pair ("", ""), so main does not take
the empty-parse error branch; instead it succeeds and writes a two-slide
deck. -/
theorem c4_empty_input_behavior :
    parse_questions [] = [([], [])] ∧
    main ["prog".data, "quiz.txt".data] (some []) =
      MainOutcome.success "quiz.pptx".data (generate_presentation [([], [])]) ∧
    main ["prog".data, "quiz.txt".data] (some []) ≠ MainOutcome.emptyParseExit ∧
    exitCode (main ["prog".data, "quiz.txt".data] (some [])) = 0 ∧
    writesOutput (main ["prog".data, "quiz.txt".data] (some [])) = true := by
  decide

/-- C5 counterexample: an empty block, produced here by three consecutive
blank-line newlines, contributes the pair ("", "") rather than no pair: the
input with blocks "A\nB", "", "C\nD" parses to three pairs, not two. -/
theorem c5_counterexample :
    splitNN (strip "A\nB\n\n\n\nC\nD".data) = ["A\nB".data, [], "C\nD".data] ∧
    parse_questions "A\nB\n\n\n\nC\nD".data ≠
      [("A".data, "B".data), ("C".data, "D".data)] ∧
    parse_questions "A\nB\n\n\n\nC\nD".data =
      [("A".data, "B".data), ([], []), ("C".data, "D".data)] ∧
    blockPair [] = some ([], []) := by
  decide

/-- C5 amended: an empty block contributes exactly one pair, with empty
question and empty answer. -/
theorem c5_empty_block_yields_empty_pair (c : List Char)
    (h : [] ∈ splitNN (strip c)) : ([], []) ∈ parse_questions c := by
  unfold parse_questions
  exact List.mem_filterMap.mpr ⟨[], h, rfl⟩

theorem c5_witness :
    ([] ∈ splitNN (strip "A\nB\n\n\n\nC\nD".data)) ∧
      (([], []) ∈ parse_questions "A\nB\n\n\n\nC\nD".data) :=
  ⟨by decide, c5_empty_block_yields_empty_pair "A\nB\n\n\n\nC\nD".data (by decide)⟩

/-- C6: a block that is a single non-blank line without newlines yields
exactly one pair, the stripped line with an empty answer — both as a block
and as a whole single-block input. -/
theorem c6_single_line_block (l : List Char) (h1 : '\n' ∉ l)
    (_h2 : strip l ≠ []) :
    blockPair l = some (strip l, []) ∧ parse_questions l = [(strip l, [])] := by
  have hb : blockPair l = some (strip l, []) := by
    unfold blockPair
    rw [splitN_of_no_newline (strip l) (fun hm => h1 (mem_of_mem_strip _ _ hm))]
    show some (strip (strip l), []) = some (strip l, [])
    rw [strip_strip]
  refine ⟨hb, ?_⟩
  unfold parse_questions
  rw [splitNN_single (strip l)
    (goodSeg_of_no_newline _ (fun hm => h1 (mem_of_mem_strip _ _ hm)))]
  rw [List.filterMap_cons, blockPair_strip l, hb]
  rfl

theorem c6_witness :
    parse_questions "OnlyQuestion?".data = [("OnlyQuestion?".data, [])] := by
  have h := (c6_single_line_block "OnlyQuestion?".data (by decide) (by decide)).2
  rw [h]
  decide

/-- C7: in a block with more than two lines all lines after the second are
ignored: the block's pair is the same as that of the block truncated to its
first two lines, and a single-block input with extra lines parses to exactly
that one pair. -/
theorem c7_extra_lines_ignored (l1 l2 : List Char) (rest : List (List Char))
    (h : ∀ x ∈ l1 :: l2 :: rest, goodLine x) :
    blockPair (mkBlock (l1 :: l2 :: rest)) = some (strip l1, strip l2) ∧
    blockPair (mkBlock (l1 :: l2 :: rest)) = blockPair (mkBlock [l1, l2]) ∧
    parse_questions (mkBlock (l1 :: l2 :: rest)) = [(strip l1, strip l2)] := by
  have h₂ : ∀ x ∈ [l1, l2], goodLine x := by
    intro x hx
    rcases List.mem_cons.mp hx with rfl | hx₂
    · exact h x (List.mem_cons_self _ _)
    · rcases List.mem_cons.mp hx₂ with rfl | hx₃
      · exact h x (List.mem_cons_of_mem _ (List.mem_cons_self _ _))
      · exact absurd hx₃ (List.not_mem_nil x)
  have hb := blockPair_mkBlock l1 l2 rest h
  have hb₂ := blockPair_mkBlock l1 l2 [] h₂
  refine ⟨hb, by rw [hb, hb₂], ?_⟩
  have hgs : goodSeg (strip (mkBlock (l1 :: l2 :: rest))) = true :=
    goodSeg_rstrip _ (goodSeg_lstrip _ (goodSeg_mkBlock _
      (fun x hx => ⟨(h x hx).1, goodLine_ne_nil x (h x hx)⟩)))
  unfold parse_questions
  rw [splitNN_single _ hgs]
  rw [List.filterMap_cons, blockPair_strip, hb]
  rfl

theorem c7_witness :
    blockPair (mkBlock ["Q?".data, "A".data, "ignored".data]) =
      some (strip "Q?".data, strip "A".data) :=
  (c7_extra_lines_ignored "Q?".data "A".data ["ignored".data] (by decide)).1

/-- C8: when sys.argv does not have exactly one positional argument beside
the program name, main prints usage and exits with status 1, writes no
output, and its outcome does not depend on any file content. -/
theorem c8_usage_arity (argv : List (List Char)) (f1 f2 : Option (List Char))
    (h : argv.length ≠ 2) :
    main argv f1 = MainOutcome.usageExit ∧
    exitCode (main argv f1) = 1 ∧
    writesOutput (main argv f1) = false ∧
    main argv f1 = main argv f2 := by
  unfold main
  rw [if_pos h, if_pos h]
  exact ⟨rfl, rfl, rfl, rfl⟩

theorem c8_witness : main ["prog".data] none = MainOutcome.usageExit :=
  (c8_usage_arity ["prog".data] none (some []) (by decide)).1

/-- C9: parse_questions returns at least one pair for every input, one per
block of the split, because even an empty block contributes a pair; hence
the "no question/answer pairs found" branch of main can never be taken. -/
theorem c9_no_pairs_branch_unreachable (c : List Char) :
    parse_questions c ≠ [] ∧
    (parse_questions c).length = (splitNN (strip c)).length ∧
    ∀ argv file, main argv file ≠ MainOutcome.emptyParseExit := by
  refine ⟨parse_questions_ne_nil c, parse_questions_length c, ?_⟩
  intro argv file
  unfold main
  by_cases h : argv.length ≠ 2
  · rw [if_pos h]
    intro hh
    cases hh
  · rw [if_neg h]
    cases file with
    | none =>
      intro hh
      cases hh
    | some content =>
      show (if parse_questions content = [] then MainOutcome.emptyParseExit
        else MainOutcome.success (output_file (argv.getD 1 []))
          (generate_presentation (parse_questions content))) ≠
        MainOutcome.emptyParseExit
      rw [if_neg (parse_questions_ne_nil content)]
      intro hh
      cases hh

/-- C10: every question and every answer returned by parse_questions is free
of newline characters and carries no leading or trailing whitespace (it is a
fixed point of strip). -/
theorem c10_parsed_strings_normalized (c q a : List Char)
    (h : (q, a) ∈ parse_questions c) :
    ('\n' ∉ q ∧ strip q = q) ∧ '\n' ∉ a ∧ strip a = a := by
  unfold parse_questions at h
  obtain ⟨b, hb, hbp⟩ := List.mem_filterMap.mp h
  unfold blockPair at hbp
  cases hs : splitN (strip b) with
  | nil =>
    rw [hs] at hbp
    cases hbp
  | cons q0 t =>
    rw [hs] at hbp
    cases t with
    | nil =>
      have h1 : strip q0 = q ∧ ([] : List Char) = a := by
        injection hbp with h2
        exact ⟨congrArg Prod.fst h2, congrArg Prod.snd h2⟩
      obtain ⟨hq, ha⟩ := h1
      subst hq
      subst ha
      have hq0 : '\n' ∉ q0 :=
        splitN_no_newline (strip b) q0 (by rw [hs]; exact List.mem_cons_self _ _)
      exact ⟨⟨fun hm => hq0 (mem_of_mem_strip _ _ hm), strip_strip q0⟩,
        by simp, rfl⟩
    | cons a0 t₂ =>
      have h1 : strip q0 = q ∧ strip a0 = a := by
        injection hbp with h2
        exact ⟨congrArg Prod.fst h2, congrArg Prod.snd h2⟩
      obtain ⟨hq, ha⟩ := h1
      subst hq
      subst ha
      have hq0 : '\n' ∉ q0 :=
        splitN_no_newline (strip b) q0 (by rw [hs]; exact List.mem_cons_self _ _)
      have ha0 : '\n' ∉ a0 :=
        splitN_no_newline (strip b) a0
          (by rw [hs]; exact List.mem_cons_of_mem _ (List.mem_cons_self _ _))
      exact ⟨⟨fun hm => hq0 (mem_of_mem_strip _ _ hm), strip_strip q0⟩,
        fun hm => ha0 (mem_of_mem_strip _ _ hm), strip_strip a0⟩

theorem c10_witness :
    ('\n' ∉ "Q".data ∧ strip "Q".data = "Q".data) ∧
      '\n' ∉ "A".data ∧ strip "A".data = "A".data :=
  c10_parsed_strings_normalized " Q\nA ".data "Q".data "A".data (by decide)

theorem c1_witness :
    parse_questions (mkContent [["Q1?".data, "A1".data], ["Q2?".data, "A2".data]]) =
      [["Q1?".data, "A1".data], ["Q2?".data, "A2".data]].map blockQA :=
  c1_parse_wellformed_blocks _ (by decide) (by decide) (by decide)

theorem c2_witness :
    (generate_presentation [("Q1?".data, "A1".data), ("Q2?".data, "A2".data)]).length =
      2 * [("Q1?".data, "A1".data), ("Q2?".data, "A2".data)].length :=
  (c2_deck_layout [("Q1?".data, "A1".data), ("Q2?".data, "A2".data)] (by decide)).1

end QuizGen
